import Mathlib

/-!
Verification of the lucky-number-draw engine (`src/App.tsx`).

The React component `LuckyNumberGenerator` is a timer-driven state machine.  We embed it
shallowly: the `useState` fields become the fields of `Machine`, and the browser timer queue
(`setInterval` / `setTimeout` / `clearInterval`) becomes an explicit list of `PendingEvent`s
carrying the values captured by the scheduled closures.  Firing an event applies the body of
the corresponding callback to the state.  `Math.random()` is modelled by an explicit stream
of natural numbers (`Math.floor(Math.random() * n)` becomes `oracle k % n`).
-/

namespace LuckyDraw

/-- Roster entry parsed from the uploaded spreadsheet (`interface Entry`, App.tsx lines 13-16). -/
structure Entry where
  number : Nat
  user : String
deriving DecidableEq, Repr

/-- Entry of the winners history (`interface Winner`, App.tsx lines 6-11).  `Date.now()` (the
`id`) and `toLocaleTimeString()` (the `timestamp`) are both modelled as the numeric event-loop
time at which the settle callback fires. -/
structure Winner where
  id : Nat
  number : String
  user : String
  timestamp : Nat
deriving DecidableEq, Repr

/-- The numeric settings consumed by the draw engine (`defaultSettings`, App.tsx lines 19-35).
The purely visual and audio fields (images, colors, sounds, font size) are out of scope. -/
structure Settings where
  digits : Nat
  minValue : Nat
  maxValue : Nat
  generatingTime : Nat
  digitStopDelay : Nat
deriving DecidableEq, Repr

/-- The numeric part of `defaultSettings` (App.tsx lines 19-35). -/
def defaultSettings : Settings :=
  { digits := 3, minValue := 0, maxValue := 999, generatingTime := 1500, digitStopDelay := 300 }

/-- The three kinds of callbacks the component schedules (App.tsx lines 184-252): the periodic
per-slot spin tick (`setInterval`, period 50), the per-slot stop `setTimeout`, and the trailing
settle `setTimeout` created inside the stop callback of slot 0.  Stop and settle events carry
the values (`finalDigits`, `final`, `userName`) captured by the corresponding closures. -/
inductive TimerKind where
  | spin (slot : Nat)
  | stop (slot : Nat) (finalDigits : List String) (final : String) (userName : String)
  | settle (final : String) (userName : String)
deriving DecidableEq, Repr

/-- A scheduled timer callback: its id (as returned by `setInterval`/`setTimeout`), its absolute
due time, and the callback it runs. -/
structure PendingEvent where
  id : Nat
  time : Nat
  kind : TimerKind
deriving DecidableEq, Repr

/-- The component state: one field per `useState` hook of the draw engine, plus the mutable
`intervalRefs` ref, the browser timer queue `pending`, a counter `nextId` supplying fresh
timer ids (ids start at 1, since a JavaScript timer id is a nonzero, hence truthy, number),
and the current event-loop time `now`. -/
structure Machine where
  settings : Settings
  entries : List Entry
  remainingEntries : List Entry
  isGenerating : Bool
  finalNumber : String
  finalUser : String
  animatingDigits : List String
  stoppedDigits : List Nat
  winners : List Winner
  intervalRefs : List Nat
  pending : List PendingEvent
  nextId : Nat
  now : Nat
deriving Repr

/-- JavaScript `String.prototype.padStart(n, c)`: returns the string unchanged when its length
is already at least `n`, otherwise left-pads with `c`.  It never truncates. -/
def padStart (s : String) (n : Nat) (c : Char) : String :=
  if n ≤ s.length then s else String.mk (List.replicate (n - s.length) c) ++ s

/-- JavaScript `final.split('')` (App.tsx line 181): the list of one-character strings. -/
def splitChars (s : String) : List String :=
  s.data.map (fun c => String.mk [c])

/-- Concatenation of the per-slot displayed digits, the value the audience reads off the
slot row. -/
def concatDigits (l : List String) : String :=
  l.foldl (fun a s => a ++ s) ""

/-- JavaScript array assignment `arr[i] = v` on a copied array (`const newDigits = [...prev];
newDigits[i] = v`, App.tsx lines 186-189 and 206-209): in-place update when `i < arr.length`,
extension with holes when `i ≥ arr.length`.  A hole (`undefined`) is modelled as `""`. -/
def setIdxExtend (l : List String) (i : Nat) (v : String) : List String :=
  if i < l.length then l.set i v
  else l ++ List.replicate (i - l.length) "" ++ [v]

/-- The bounded retry loop of `generateRandomNumber` (App.tsx lines 106-114):
`while (attempts < 1000) { const num = Math.floor(Math.random() * (maxValue - minValue + 1))
+ minValue; const formatted = num.toString().padStart(digits, '0'); if
(!excludedNumbers.includes(formatted)) return formatted; attempts++; }`.
`fuel` counts the remaining attempts, `attempt` indexes the random stream. -/
def genLoop (s : Settings) (excludedNumbers : List String) (oracle : Nat → Nat) :
    Nat → Nat → Option String
  | 0, _ => none
  | fuel + 1, attempt =>
    let total := s.maxValue - s.minValue + 1
    let num := s.minValue + oracle attempt % total
    let formatted := padStart (toString num) s.digits '0'
    if formatted ∈ excludedNumbers then genLoop s excludedNumbers oracle fuel (attempt + 1)
    else some formatted

/-- `generateRandomNumber` (App.tsx lines 97-116).  The JavaScript `null` result (exhaustion)
is `none`. -/
def generateRandomNumber (s : Settings) (excludedNumbers : List String)
    (oracle : Nat → Nat) : Option String :=
  let totalPossible := s.maxValue - s.minValue + 1
  if totalPossible ≤ excludedNumbers.length then none
  else genLoop s excludedNumbers oracle 1000 0

/-- The roster branch of `startGeneration` (App.tsx lines 162-168): pick
`index = Math.floor(Math.random() * remainingEntries.length)`, take that entry and remove it
(`remainingEntries.filter((_, i) => i !== index)`, i.e. `eraseIdx`). -/
def rosterDraw (r : Nat) (rem : List Entry) : Option (Entry × List Entry) :=
  if h : 0 < rem.length then
    some (rem.get ⟨r % rem.length, Nat.mod_lt r h⟩, rem.eraseIdx (r % rem.length))
  else none

/-- The value-sampling phase of `startGeneration` (App.tsx lines 158-178): roster mode when
`remainingEntries.length > 0`, otherwise range mode with the exclusion list
`winners.map(w => w.number)`.  Returns `(final, userName, new remainingEntries)`, or `none`
for the exhausted case.  `rand 0` feeds the roster index; `rand (k+1)` feeds attempt `k` of
the range-mode retry loop. -/
def sampleDraw (rand : Nat → Nat) (m : Machine) : Option (String × String × List Entry) :=
  match rosterDraw (rand 0) m.remainingEntries with
  | some (luckyEntry, rem) =>
      some (padStart (toString luckyEntry.number) m.settings.digits '0', luckyEntry.user, rem)
  | none =>
      match generateRandomNumber m.settings (m.winners.map Winner.number)
          (fun k => rand (k + 1)) with
      | some v => some (v, "", m.remainingEntries)
      | none => none

/-- The winner record appended at settle time (App.tsx lines 242-247):
`{ id: Date.now().toString(), number: final, user: userName || 'Random Guest',
timestamp: ... }`.  JavaScript `userName || 'Random Guest'` falls back exactly when
`userName` is the empty string. -/
def mkWinner (t : Nat) (final userName : String) : Winner :=
  { id := t, number := final,
    user := if userName = "" then "Random Guest" else userName, timestamp := t }

/-- The scheduling tail of `startGeneration` (App.tsx lines 183-252): one spin interval per
slot (ids recorded in `intervalRefs`), then one stop timeout per slot, registered from the
rightmost slot (`i = digits - 1`, extra delay 0) to the leftmost (`i = 0`, extra delay
`(digits - 1) * digitStopDelay`), each due at `generatingTime + (digits - 1 - i) *
digitStopDelay` after the current instant.  The stop-timeout ids are NOT recorded anywhere. -/
def scheduleReveal (m : Machine) (final userName : String) : Machine :=
  let d := m.settings.digits
  let fd := splitChars final
  let base := m.nextId
  let spins := (List.range d).map
    (fun j => PendingEvent.mk (base + j) (m.now + 50) (TimerKind.spin j))
  let stops := (List.range d).map
    (fun k => PendingEvent.mk (base + d + k)
      (m.now + m.settings.generatingTime + k * m.settings.digitStopDelay)
      (TimerKind.stop (d - 1 - k) fd final userName))
  { m with pending := m.pending ++ spins ++ stops,
           intervalRefs := (List.range d).map (base + ·),
           nextId := base + 2 * d }

/-- `startGeneration` (App.tsx lines 136-253) up to (and including) the point where all timers
are registered; the scheduled callbacks themselves run later, through `fire`.  Mirrors the
source order: bail out if `isGenerating`; set `isGenerating`, clear `finalNumber`,
`finalUser`, `stoppedDigits`; cancel the intervals recorded in `intervalRefs`; initialize
`animatingDigits` to `digits` copies of `'0'`; sample the winning value (roster or range);
on exhaustion (`null`), `alert` and set `isGenerating` back to `false`, keeping all the
mutations made so far; otherwise register the spin intervals and stop timeouts. -/
def startGeneration (rand : Nat → Nat) (m : Machine) : Machine :=
  if m.isGenerating then m
  else
    let m1 : Machine :=
      { m with isGenerating := true, finalNumber := "", finalUser := "", stoppedDigits := [],
               pending := m.pending.filter (fun ev => !(m.intervalRefs.contains ev.id)),
               intervalRefs := [],
               animatingDigits := List.replicate m.settings.digits "0" }
    match sampleDraw rand m with
    | none => { m1 with isGenerating := false }
    | some (final, userName, rem) =>
        scheduleReveal { m1 with remainingEntries := rem } final userName

/-- Running one scheduled callback (App.tsx lines 185-250).  `r` is the random draw consumed
by a spin tick (`Math.floor(Math.random() * 10)` becomes `r % 10`).  A spin tick randomizes
its slot and, being an interval, re-arms itself 50 units later under the same id.  A stop
callback cancels `intervalRefs.current[slot]` if that cell is present (after a reset the
array is empty, so the guard `if (intervalRefs.current[i])` fails), writes the captured final
digit into its slot, records the slot in `stoppedDigits`, and for slot 0 schedules the settle
timeout 200 units later.  The settle callback publishes the final number and user, returns
the session to idle, and prepends the winner record. -/
def fire (m : Machine) (e : PendingEvent) (r : Nat) : Machine :=
  let p0 := m.pending.erase e
  match e.kind with
  | TimerKind.spin slot =>
      { m with now := e.time,
               animatingDigits := setIdxExtend m.animatingDigits slot (toString (r % 10)),
               pending := p0 ++ [PendingEvent.mk e.id (e.time + 50) (TimerKind.spin slot)] }
  | TimerKind.stop slot fd final userName =>
      let p1 := match m.intervalRefs.get? slot with
                | some iid => p0.filter (fun ev => ev.id ≠ iid)
                | none => p0
      let p2 := if slot = 0 then
                  p1 ++ [PendingEvent.mk m.nextId (e.time + 200) (TimerKind.settle final userName)]
                else p1
      { m with now := e.time,
               animatingDigits := setIdxExtend m.animatingDigits slot (fd.getD slot ""),
               stoppedDigits := m.stoppedDigits ++ [slot],
               pending := p2,
               nextId := if slot = 0 then m.nextId + 1 else m.nextId }
  | TimerKind.settle final userName =>
      { m with now := e.time,
               finalNumber := final,
               finalUser := userName,
               isGenerating := false,
               winners := mkWinner e.time final userName :: m.winners,
               pending := p0 }

/-- One step of the browser event loop: some pending timer fires, with some random draw `r`
available to it.  (The relation deliberately allows any pending event to fire, which is a
superset of the time-ordered behaviour; safety properties proved over it also hold for the
real scheduler.) -/
def stepMachine (m m2 : Machine) : Prop :=
  ∃ e ∈ m.pending, ∃ r : Nat, m2 = fire m e r

/-- `resetToDefaults` (App.tsx lines 118-133): restores the settings, empties the roster,
clears the displayed state and the winners history, and cancels the intervals recorded in
`intervalRefs` — and only those.  The stop and settle `setTimeout` ids were never stored, so
those callbacks remain pending.  Note also that the source does not touch `isGenerating`. -/
def resetToDefaults (m : Machine) : Machine :=
  { m with settings := defaultSettings,
           entries := [], remainingEntries := [],
           finalNumber := "", finalUser := "",
           animatingDigits := [], stoppedDigits := [],
           winners := [],
           pending := m.pending.filter (fun ev => !(m.intervalRefs.contains ev.id)),
           intervalRefs := [] }

/-- The clear-history button of the winners modal (App.tsx line 969): `setWinners([])`. -/
def clearHistory (m : Machine) : Machine :=
  { m with winners := [] }

/-- The earliest-due pending timer (ties resolved in favour of the earlier-registered one),
as the browser event loop would pick it. -/
def earliestDue : List PendingEvent → Option PendingEvent
  | [] => none
  | e :: es =>
      match earliestDue es with
      | none => some e
      | some e2 => if e2.time < e.time then some e2 else some e

/-- Run up to `fuel` event-loop steps, always firing the earliest-due pending timer, feeding
spin ticks from the stream `rand`. -/
def runTimers (rand : Nat → Nat) : Nat → Machine → Machine
  | 0, m => m
  | fuel + 1, m =>
      match earliestDue m.pending with
      | none => m
      | some e => runTimers rand fuel (fire m e (rand fuel))

/-- A convenient idle machine with empty roster, history and timer queue. -/
def mkIdle (s : Settings) : Machine :=
  { settings := s, entries := [], remainingEntries := [], isGenerating := false,
    finalNumber := "", finalUser := "", animatingDigits := [], stoppedDigits := [],
    winners := [], intervalRefs := [], pending := [], nextId := 1, now := 0 }

/-- Iterated roster-mode sampling: run `rosterDraw` once per element of the random stream
`rs`, threading the remaining subset; returns the list of drawn entries (in draw order) and
the final remaining subset. -/
def rosterDraws : List Nat → List Entry → List Entry × List Entry
  | [], rem => ([], rem)
  | r :: rs, rem =>
    match rosterDraw r rem with
    | none => ([], rem)
    | some (e, rem2) =>
        let p := rosterDraws rs rem2
        (e :: p.1, p.2)

/-- Reset-during-draw scenario, step 0: an idle single-digit session. -/
def resetM0 : Machine :=
  mkIdle { digits := 1, minValue := 0, maxValue := 9, generatingTime := 1500,
           digitStopDelay := 300 }

/-- Reset-during-draw scenario, step 1: a range-mode draw of the value 5 is started. -/
def resetM1 : Machine := startGeneration (fun _ => 5) resetM0

/-- Reset-during-draw scenario, step 2: the session is reset while the draw is in flight. -/
def resetM2 : Machine := resetToDefaults resetM1

/-- Reset-during-draw scenario, step 3: the event loop then runs past the originally
scheduled stop and settle times. -/
def resetM3 : Machine := runTimers (fun _ => 0) 4 resetM2

/-- Exhaustion scenario: a session that has already drawn the only value of its range
("0" with `minValue = maxValue = 0`) and still displays that completed draw. -/
def exhM : Machine :=
  { mkIdle { digits := 1, minValue := 0, maxValue := 0, generatingTime := 1500,
             digitStopDelay := 300 } with
    finalNumber := "7", finalUser := "X", animatingDigits := ["7"], stoppedDigits := [0],
    winners := [⟨1, "0", "Random Guest", 1⟩] }

/-- Clear-history scenario: a range of the single value 5, already drawn once (so the
session is exhausted until the history is cleared). -/
def rerollM : Machine :=
  { mkIdle { digits := 1, minValue := 5, maxValue := 5, generatingTime := 1500,
             digitStopDelay := 300 } with
    winners := [⟨1, "5", "A", 1⟩] }

/-- The parameters of one in-flight reveal: slot count `d`, the id `base` of the first spin
interval, the captured digit list `fd`, the winning value and owner, and the winners log as
it stood when the draw started. -/
structure DrawCtx where
  d : Nat
  base : Nat
  fd : List String
  final : String
  userName : String
  w0 : List Winner

/-- Recognizes the spin event of slot `i`. -/
def spinP (i : Nat) (e : PendingEvent) : Bool :=
  decide (e.kind = TimerKind.spin i)

/-- Recognizes the stop event of slot `i` belonging to the draw `c`. -/
def stopP (c : DrawCtx) (i : Nat) (e : PendingEvent) : Bool :=
  decide (e.kind = TimerKind.stop i c.fd c.final c.userName)

/-- Recognizes the settle event belonging to the draw `c`. -/
def settleP (c : DrawCtx) (e : PendingEvent) : Bool :=
  decide (e.kind = TimerKind.settle c.final c.userName)

/-- The shapes a pending timer can have during the reveal of draw `c`: a spin interval of
slot `i < d` whose id is the one recorded in `intervalRefs` cell `i`; a stop timeout of slot
`i < d` carrying the draw payload; or the settle timeout, created after all per-slot timers
(so with a strictly larger id). -/
def ValidEv (c : DrawCtx) (e : PendingEvent) : Prop :=
  (∃ i, i < c.d ∧ e.kind = TimerKind.spin i ∧ e.id = c.base + i) ∨
  (∃ i, i < c.d ∧ e.kind = TimerKind.stop i c.fd c.final c.userName ∧
    e.id = c.base + c.d + (c.d - 1 - i)) ∨
  (e.kind = TimerKind.settle c.final c.userName ∧ c.base + 2 * c.d ≤ e.id)

/-- Slot `i` has reached its terminal state: it displays the captured final digit and its
spin interval is gone, so no further randomization of that slot can occur. -/
def FixedSlot (c : DrawCtx) (m : Machine) (i : Nat) : Prop :=
  m.animatingDigits.getD i "" = c.fd.getD i "" ∧ m.pending.countP (spinP i) = 0

/-- Lifecycle of the tail of the draw: either slot 0 has not stopped yet (no settle timeout
exists, log untouched), or the settle timeout is pending (log untouched), or settle has
fired (exactly one record prepended, final value and user published, session idle). -/
def Phase (c : DrawCtx) (m : Machine) : Prop :=
  (0 < m.pending.countP (stopP c 0) ∧ m.pending.countP (settleP c) = 0 ∧ m.winners = c.w0) ∨
  (m.pending.countP (stopP c 0) = 0 ∧ m.pending.countP (settleP c) = 1 ∧ m.winners = c.w0) ∨
  (m.pending.countP (stopP c 0) = 0 ∧ m.pending.countP (settleP c) = 0 ∧
    (∃ t, m.winners = mkWinner t c.final c.userName :: c.w0) ∧
    m.finalNumber = c.final ∧ m.finalUser = c.userName ∧ m.isGenerating = false)

/-- Invariant of the machine while the reveal of draw `c` is in flight (established by
`startGeneration`, preserved by every event-loop step). -/
structure Inv (c : DrawCtx) (m : Machine) : Prop where
  hd : 1 ≤ c.d
  hfd : c.d ≤ c.fd.length
  refs : m.intervalRefs = (List.range c.d).map (c.base + ·)
  digitsLen : m.animatingDigits.length = c.d
  valid : ∀ e ∈ m.pending, ValidEv c e
  stopCount : ∀ i, i < c.d → m.pending.countP (stopP c i) ≤ 1
  spinCount : ∀ i, i < c.d → m.pending.countP (spinP i) ≤ 1
  fixedOfStopGone : ∀ i, i < c.d → m.pending.countP (stopP c i) = 0 → FixedSlot c m i
  stopped : ∀ i ∈ m.stoppedDigits, i < c.d ∧ m.pending.countP (stopP c i) = 0
  nid : c.base + 2 * c.d ≤ m.nextId
  phase : Phase c m

/-- The reveal context a fresh draw of `final`/`userName` starts in. -/
def startCtx (m : Machine) (final userName : String) : DrawCtx :=
  { d := m.settings.digits, base := m.nextId, fd := splitChars final,
    final := final, userName := userName, w0 := m.winners }

/-- Terminal-digit scenario: a single-slot session whose roster holds the entry 7 / "A". -/
def mW : Machine :=
  { mkIdle { digits := 1, minValue := 0, maxValue := 9, generatingTime := 1500,
             digitStopDelay := 300 } with
    remainingEntries := [⟨7, "A"⟩] }

/-- Overflow scenario: a single-slot session whose roster holds the two-digit entry 23, so
the formatted value "23" is longer than the one configured slot. -/
def mW10 : Machine :=
  { mkIdle { digits := 1, minValue := 0, maxValue := 9, generatingTime := 1500,
             digitStopDelay := 300 } with
    remainingEntries := [⟨23, "B"⟩] }

/-- Every successful iteration of the retry loop yields a value outside the exclusion list,
obtained by zero-padding a number of the configured range. -/
theorem genLoop_some_spec (s : Settings) (excluded : List String) (oracle : Nat → Nat)
    (hrange : s.minValue ≤ s.maxValue) :
    ∀ fuel attempt v, genLoop s excluded oracle fuel attempt = some v →
      v ∉ excluded ∧ ∃ n, s.minValue ≤ n ∧ n ≤ s.maxValue ∧
        v = padStart (toString n) s.digits '0' := by
  intro fuel
  induction fuel with
  | zero => intro attempt v h; exact absurd h (by simp [genLoop])
  | succ fuel ih =>
    intro attempt v h
    simp only [genLoop] at h
    split at h
    · exact ih _ _ h
    · rename_i hmem
      injection h with h
      subst h
      have hlt : oracle attempt % (s.maxValue - s.minValue + 1) <
          s.maxValue - s.minValue + 1 := Nat.mod_lt _ (Nat.succ_pos _)
      exact ⟨hmem, s.minValue + oracle attempt % (s.maxValue - s.minValue + 1),
        Nat.le_add_right _ _, by omega, rfl⟩

/-- When every attempted draw lands in the exclusion list, the loop burns all its fuel and
reports exhaustion. -/
theorem genLoop_none_of_all_excluded (s : Settings) (excluded : List String)
    (oracle : Nat → Nat)
    (hall : ∀ k, padStart (toString (s.minValue + oracle k % (s.maxValue - s.minValue + 1)))
      s.digits '0' ∈ excluded) :
    ∀ fuel attempt, genLoop s excluded oracle fuel attempt = none := by
  intro fuel
  induction fuel with
  | zero => intro attempt; rfl
  | succ fuel ih =>
    intro attempt
    simp only [genLoop]
    rw [if_pos (hall attempt)]
    exact ih _

/-- C3: given an exclusion list over the range, the sampler returns Exhausted whenever the
exclusion set (the deduplicated list) covers all `maxValue - minValue + 1` possible values;
any value it does return avoids the exclusion list as it stood before the draw and is a
number of the range formatted by left-zero-padding to the digit width; and when every
attempted draw is excluded, the 1000-attempt bound makes it return Exhausted rather than
diverge. -/
theorem generateRandomNumber_spec (s : Settings) (excluded : List String) (oracle : Nat → Nat)
    (hrange : s.minValue ≤ s.maxValue) :
    (s.maxValue - s.minValue + 1 ≤ excluded.dedup.length →
        generateRandomNumber s excluded oracle = none) ∧
    (∀ v, generateRandomNumber s excluded oracle = some v →
        v ∉ excluded ∧ ∃ n, s.minValue ≤ n ∧ n ≤ s.maxValue ∧
          v = padStart (toString n) s.digits '0') ∧
    ((∀ k, padStart (toString (s.minValue + oracle k % (s.maxValue - s.minValue + 1)))
          s.digits '0' ∈ excluded) →
        generateRandomNumber s excluded oracle = none) := by
  refine ⟨?_, ?_, ?_⟩
  · intro h
    have hle : excluded.dedup.length ≤ excluded.length := excluded.dedup_sublist.length_le
    simp only [generateRandomNumber]
    rw [if_pos (le_trans h hle)]
  · intro v hv
    simp only [generateRandomNumber] at hv
    split at hv
    · exact absurd hv (by simp)
    · exact genLoop_some_spec s excluded oracle hrange _ _ _ hv
  · intro hall
    simp only [generateRandomNumber]
    split
    · rfl
    · exact genLoop_none_of_all_excluded s excluded oracle hall _ _

/-- Witness for C3, which is also the exhaustion boundary of the spec: `minValue = 0`,
`maxValue = 1`, `digitCount = 1` and exclusion `{"0", "1"}` yield Exhausted. -/
theorem generateRandomNumber_spec_witness :
    generateRandomNumber
      { digits := 1, minValue := 0, maxValue := 1, generatingTime := 1500,
        digitStopDelay := 300 } ["0", "1"] (fun _ => 0) = none :=
  (generateRandomNumber_spec _ _ _ (by decide)).1 (by decide)

/-- C8: a draw request made while a draw is running is a complete no-op — the machine is
returned unchanged, so exactly one draw can be in flight at a time. -/
theorem startGeneration_noop_of_running (rand : Nat → Nat) (m : Machine)
    (h : m.isGenerating = true) : startGeneration rand m = m := by
  simp [startGeneration, h]

/-- Witness for C8 at a concrete running machine. -/
theorem startGeneration_noop_of_running_witness :
    startGeneration (fun _ => 0) { mkIdle defaultSettings with isGenerating := true }
      = { mkIdle defaultSettings with isGenerating := true } :=
  startGeneration_noop_of_running _ _ rfl

/-- C9: firing the settle callback prepends exactly one winner record, carrying the captured
final value, the captured owner when non-empty and the fallback "Random Guest" when the
owner is absent (empty), so the log is newest-first and grows by one per completed draw. -/
theorem settle_appends_one_winner (m : Machine) (e : PendingEvent) (r : Nat)
    (final userName : String) (he : e ∈ m.pending)
    (hk : e.kind = TimerKind.settle final userName) :
    (fire m e r).winners = mkWinner e.time final userName :: m.winners ∧
    (fire m e r).winners.length = m.winners.length + 1 ∧
    (fire m e r).winners.head? = some (mkWinner e.time final userName) ∧
    (userName = "" → (mkWinner e.time final userName).user = "Random Guest") ∧
    (userName ≠ "" → (mkWinner e.time final userName).user = userName) := by
  obtain ⟨i, t, kind⟩ := e
  simp only at hk
  subst hk
  refine ⟨rfl, rfl, rfl, ?_, ?_⟩
  · intro h; simp [mkWinner, h]
  · intro h; simp [mkWinner, h]

/-- Witness for C9: a concrete settle event with absent owner appends one "Random Guest"
record. -/
theorem settle_appends_one_winner_witness :
    (fire { mkIdle defaultSettings with pending := [⟨1, 100, TimerKind.settle "42" ""⟩] }
        ⟨1, 100, TimerKind.settle "42" ""⟩ 0).winners = [mkWinner 100 "42" ""] ∧
    (mkWinner 100 "42" "").user = "Random Guest" := by
  have h := settle_appends_one_winner
    { mkIdle defaultSettings with pending := [⟨1, 100, TimerKind.settle "42" ""⟩] }
    ⟨1, 100, TimerKind.settle "42" ""⟩ 0 "42" "" (by simp) rfl
  exact ⟨h.1, h.2.2.2.1 rfl⟩

/-- C1 is violated by the code: `resetToDefaults` cancels only the spin intervals recorded
in `intervalRefs`; the per-slot stop timeouts and the settle timeout were scheduled with
`setTimeout` and their ids never stored, so reset cannot cancel them.  Concretely: start a
single-digit draw of the value 5, reset immediately — the stop timeout is still pending and
the session is still marked generating — then let the event loop run past the scheduled
times: the stale callbacks repopulate the slot array and stopped set and append a winner
record to the supposedly empty log. -/
theorem reset_leaves_stale_timers :
    resetM2.isGenerating = true ∧
    resetM2.pending = [⟨2, 1500, TimerKind.stop 0 ["5"] "5" ""⟩] ∧
    resetM2.animatingDigits = [] ∧
    resetM2.winners = [] ∧
    resetM3.winners.length = 1 ∧
    resetM3.finalNumber = "5" ∧
    resetM3.animatingDigits = ["5"] ∧
    resetM3.stoppedDigits = [0] := by decide

/-- C4 is violated as stated: an Exhausted request does change observable state.  The code
clears the previously displayed final value, owner, slot digits and stopped set before it
detects exhaustion, and returns with them wiped. -/
theorem exhausted_clears_display :
    sampleDraw (fun _ => 0) exhM = none ∧
    (startGeneration (fun _ => 0) exhM).isGenerating = false ∧
    (startGeneration (fun _ => 0) exhM).finalNumber ≠ exhM.finalNumber ∧
    (startGeneration (fun _ => 0) exhM).finalUser ≠ exhM.finalUser ∧
    (startGeneration (fun _ => 0) exhM).stoppedDigits ≠ exhM.stoppedDigits ∧
    (startGeneration (fun _ => 0) exhM).animatingDigits ≠ exhM.animatingDigits := by decide

/-- C4 (amended): an Exhausted request returns the session to Idle and leaves the winners
log, the derived exclusion list, the roster and the settings unchanged — but the final
value and owner are cleared, the stopped set is emptied and the slot array is reset to
`digits` placeholder `'0'` digits, as at draw start. -/
theorem startGeneration_exhausted (rand : Nat → Nat) (m : Machine)
    (hIdle : m.isGenerating = false) (hEx : sampleDraw rand m = none) :
    (startGeneration rand m).isGenerating = false ∧
    (startGeneration rand m).winners = m.winners ∧
    (startGeneration rand m).winners.map Winner.number = m.winners.map Winner.number ∧
    (startGeneration rand m).entries = m.entries ∧
    (startGeneration rand m).remainingEntries = m.remainingEntries ∧
    (startGeneration rand m).settings = m.settings ∧
    (startGeneration rand m).finalNumber = "" ∧
    (startGeneration rand m).finalUser = "" ∧
    (startGeneration rand m).stoppedDigits = [] ∧
    (startGeneration rand m).animatingDigits = List.replicate m.settings.digits "0" := by
  simp [startGeneration, hIdle, hEx]

/-- Witness for the amended C4 at the concrete exhausted machine. -/
theorem startGeneration_exhausted_witness :
    (startGeneration (fun _ => 0) exhM).isGenerating = false ∧
    (startGeneration (fun _ => 0) exhM).winners = exhM.winners :=
  ⟨(startGeneration_exhausted (fun _ => 0) exhM rfl (by decide)).1,
   (startGeneration_exhausted (fun _ => 0) exhM rfl (by decide)).2.1⟩

/-- C7 is violated as stated: the exclusion list is derived from the winners log
(`winners.map(w => w.number)`), so clearing the history also empties it.  Concretely: with
range `[5, 5]`, the value "5" has been drawn (the session is exhausted); right after
`clearHistory` the very same value "5" is drawn again. -/
theorem clearHistory_unexcludes :
    ("5" ∈ rerollM.winners.map Winner.number) ∧
    sampleDraw (fun _ => 0) rerollM = none ∧
    sampleDraw (fun _ => 0) (clearHistory rerollM) = some ("5", "", []) := by decide

/-- C7 (amended): `clearHistory` empties the winners log and changes nothing else — roster,
settings, display state and timers are untouched — but because the exclusion list consulted
by range-mode draws is derived from the winners log, it becomes empty too, so previously
drawn values may be drawn again. -/
theorem clearHistory_spec (m : Machine) :
    (clearHistory m).winners = [] ∧
    (clearHistory m).winners.map Winner.number = [] ∧
    (clearHistory m).entries = m.entries ∧
    (clearHistory m).remainingEntries = m.remainingEntries ∧
    (clearHistory m).settings = m.settings ∧
    (clearHistory m).finalNumber = m.finalNumber ∧
    (clearHistory m).finalUser = m.finalUser ∧
    (clearHistory m).animatingDigits = m.animatingDigits ∧
    (clearHistory m).stoppedDigits = m.stoppedDigits ∧
    (clearHistory m).pending = m.pending ∧
    (clearHistory m).isGenerating = m.isGenerating :=
  ⟨rfl, rfl, rfl, rfl, rfl, rfl, rfl, rfl, rfl, rfl, rfl⟩

/-- Removing index `i` splits the list around that position. -/
theorem eraseIdx_eq_take_append_drop {α : Type} (l : List α) (i : Nat) :
    l.eraseIdx i = l.take i ++ l.drop (i + 1) := by
  induction l generalizing i with
  | nil => simp
  | cons a t ih =>
    cases i with
    | zero => simp
    | succ n => simp [List.eraseIdx, ih]

/-- The drawn element together with the rest is a permutation of the original list. -/
theorem get_cons_eraseIdx_perm {α : Type} (l : List α) (i : Nat) (h : i < l.length) :
    (l.get ⟨i, h⟩ :: l.eraseIdx i).Perm l := by
  rw [eraseIdx_eq_take_append_drop]
  have h3 : l.drop i = l.get ⟨i, h⟩ :: l.drop (i + 1) := List.drop_eq_getElem_cons h
  conv_rhs => rw [← List.take_append_drop i l, h3]
  exact List.perm_middle.symm

/-- Over any sequence of roster draws, the drawn entries plus the final remaining subset are
a permutation of the original remaining subset. -/
theorem rosterDraws_perm (rs : List Nat) (rem : List Entry) :
    ((rosterDraws rs rem).1 ++ (rosterDraws rs rem).2).Perm rem := by
  induction rs generalizing rem with
  | nil => simp [rosterDraws]
  | cons r rs ih =>
    by_cases h : 0 < rem.length
    · simp only [rosterDraws, rosterDraw, dif_pos h]
      exact ((ih _).cons _).trans (get_cons_eraseIdx_perm rem (r % rem.length) (Nat.mod_lt r h))
    · simp [rosterDraws, rosterDraw, dif_neg h]

/-- C5: roster draws are without replacement.  Over any sequence of draws the drawn entries
together with the final remaining subset permute the original roster subset, so no roster
occurrence is drawn twice and a duplicate-free roster yields duplicate-free draws; each
successful draw shrinks the remaining subset by exactly one; and while remaining entries
exist the sampler takes the roster branch, so the outcome is independent of the
winners-derived exclusion list and cannot be Exhausted. -/
theorem rosterDraw_spec :
    (∀ rs rem, ((rosterDraws rs rem).1 ++ (rosterDraws rs rem).2).Perm rem) ∧
    (∀ rs rem, rem.Nodup → (rosterDraws rs rem).1.Nodup) ∧
    (∀ (r : Nat) (rem : List Entry), rem ≠ [] →
      ∃ e rem2, rosterDraw r rem = some (e, rem2) ∧ rem2.length + 1 = rem.length) ∧
    (∀ (rand : Nat → Nat) (m : Machine) (w : List Winner), m.remainingEntries ≠ [] →
      sampleDraw rand { m with winners := w } = sampleDraw rand m ∧
      sampleDraw rand m ≠ none) := by
  refine ⟨rosterDraws_perm, ?_, ?_, ?_⟩
  · intro rs rem hnd
    exact ((rosterDraws_perm rs rem).nodup_iff.mpr hnd).of_append_left
  · intro r rem hne
    have h : 0 < rem.length := List.length_pos.mpr hne
    refine ⟨rem.get ⟨r % rem.length, Nat.mod_lt r h⟩, rem.eraseIdx (r % rem.length),
      by simp [rosterDraw, dif_pos h], ?_⟩
    rw [List.length_eraseIdx, if_pos (Nat.mod_lt r h)]
    omega
  · intro rand m w hne
    have h : 0 < m.remainingEntries.length := List.length_pos.mpr hne
    exact ⟨by simp [sampleDraw, rosterDraw, dif_pos h], by simp [sampleDraw, rosterDraw, dif_pos h]⟩

/-- Witness for C5: two draws from a two-entry roster are distinct, and a draw from a
singleton roster succeeds and leaves zero entries. -/
theorem rosterDraw_spec_witness :
    (rosterDraws [0, 0] [⟨7, "A"⟩, ⟨8, "B"⟩]).1.Nodup ∧
    (∃ e rem2, rosterDraw 0 [⟨7, "A"⟩] = some (e, rem2) ∧ rem2.length + 1 = 1) :=
  ⟨rosterDraw_spec.2.1 [0, 0] [⟨7, "A"⟩, ⟨8, "B"⟩] (by decide),
   rosterDraw_spec.2.2.1 0 [⟨7, "A"⟩] (by decide)⟩

/-- A successful `startGeneration` is the scheduling step applied to the cleared machine. -/
theorem startGeneration_eq_schedule (rand : Nat → Nat) (m : Machine)
    (final userName : String) (rem : List Entry) (hIdle : m.isGenerating = false)
    (hSample : sampleDraw rand m = some (final, userName, rem)) :
    startGeneration rand m = scheduleReveal
      { m with isGenerating := true, finalNumber := "", finalUser := "", stoppedDigits := [],
               pending := m.pending.filter (fun ev => !(m.intervalRefs.contains ev.id)),
               intervalRefs := [],
               animatingDigits := List.replicate m.settings.digits "0",
               remainingEntries := rem } final userName := by
  simp [startGeneration, hIdle, hSample]

/-- C6: a successful draw schedules the stop of slot `i` (0 leftmost) at elapsed time
`generatingTime + (digits - 1 - i) * digitStopDelay` after the start instant, so stops run
right to left beginning with the rightmost slot at `generatingTime`; and firing the stop of
slot 0 (the last one) schedules the settle callback 200 time units later. -/
theorem stagger_schedule (rand : Nat → Nat) (m : Machine) (final userName : String)
    (rem : List Entry) (hIdle : m.isGenerating = false)
    (hSample : sampleDraw rand m = some (final, userName, rem)) :
    (∀ i, i < m.settings.digits →
      (⟨m.nextId + m.settings.digits + (m.settings.digits - 1 - i),
        m.now + m.settings.generatingTime +
          (m.settings.digits - 1 - i) * m.settings.digitStopDelay,
        TimerKind.stop i (splitChars final) final userName⟩ : PendingEvent)
        ∈ (startGeneration rand m).pending) ∧
    (∀ r : Nat,
      (⟨(startGeneration rand m).nextId,
        m.now + m.settings.generatingTime +
          (m.settings.digits - 1) * m.settings.digitStopDelay + 200,
        TimerKind.settle final userName⟩ : PendingEvent)
        ∈ (fire (startGeneration rand m)
            ⟨m.nextId + m.settings.digits + (m.settings.digits - 1),
             m.now + m.settings.generatingTime +
               (m.settings.digits - 1) * m.settings.digitStopDelay,
             TimerKind.stop 0 (splitChars final) final userName⟩ r).pending) := by
  have hred := startGeneration_eq_schedule rand m final userName rem hIdle hSample
  constructor
  · intro i hi
    rw [hred]
    simp only [scheduleReveal]
    refine List.mem_append.mpr (Or.inr ?_)
    refine List.mem_map.mpr ⟨m.settings.digits - 1 - i, List.mem_range.mpr (by omega), ?_⟩
    have h2 : m.settings.digits - 1 - (m.settings.digits - 1 - i) = i := by omega
    rw [h2]
  · intro r
    rw [hred]
    simp only [fire]
    exact List.mem_append.mpr (Or.inr (List.mem_singleton.mpr rfl))

/-- Witness for C6: with `digitCount = 3`, `generatingTime = 1000`, `digitStopDelay = 300`,
slot 2 stops at t = 1000, slot 1 at t = 1300, slot 0 at t = 1600 and settle runs at
t = 1800. -/
theorem stagger_schedule_witness :
    ((⟨4, 1000, TimerKind.stop 2 (splitChars "123") "123" "A"⟩ : PendingEvent)
      ∈ (startGeneration (fun _ => 0)
          { mkIdle { digits := 3, minValue := 0, maxValue := 999, generatingTime := 1000,
                     digitStopDelay := 300 } with
            remainingEntries := [⟨123, "A"⟩] }).pending) ∧
    ((⟨5, 1300, TimerKind.stop 1 (splitChars "123") "123" "A"⟩ : PendingEvent)
      ∈ (startGeneration (fun _ => 0)
          { mkIdle { digits := 3, minValue := 0, maxValue := 999, generatingTime := 1000,
                     digitStopDelay := 300 } with
            remainingEntries := [⟨123, "A"⟩] }).pending) ∧
    ((⟨6, 1600, TimerKind.stop 0 (splitChars "123") "123" "A"⟩ : PendingEvent)
      ∈ (startGeneration (fun _ => 0)
          { mkIdle { digits := 3, minValue := 0, maxValue := 999, generatingTime := 1000,
                     digitStopDelay := 300 } with
            remainingEntries := [⟨123, "A"⟩] }).pending) ∧
    ((⟨7, 1800, TimerKind.settle "123" "A"⟩ : PendingEvent)
      ∈ (fire (startGeneration (fun _ => 0)
          { mkIdle { digits := 3, minValue := 0, maxValue := 999, generatingTime := 1000,
                     digitStopDelay := 300 } with
            remainingEntries := [⟨123, "A"⟩] })
          ⟨6, 1600, TimerKind.stop 0 (splitChars "123") "123" "A"⟩ 0).pending) := by
  have h := stagger_schedule (fun _ => 0)
    { mkIdle { digits := 3, minValue := 0, maxValue := 999, generatingTime := 1000,
               digitStopDelay := 300 } with
      remainingEntries := [⟨123, "A"⟩] } "123" "A" [] rfl (by decide)
  exact ⟨h.1 2 (by decide), h.1 1 (by decide), h.1 0 (by decide), h.2 0⟩

/-- Erasing an element satisfying `p` lowers the `p`-count by one. -/
theorem countP_erase_pos {α : Type} [DecidableEq α] (l : List α) (e : α) (p : α → Bool)
    (he : e ∈ l) (hp : p e = true) : (l.erase e).countP p + 1 = l.countP p := by
  have h := (List.perm_cons_erase he).countP_eq p
  rw [h, List.countP_cons, hp]
  simp

/-- Erasing an element not satisfying `p` keeps the `p`-count. -/
theorem countP_erase_neg {α : Type} [DecidableEq α] (l : List α) (e : α) (p : α → Bool)
    (he : e ∈ l) (hp : p e = false) : (l.erase e).countP p = l.countP p := by
  have h := (List.perm_cons_erase he).countP_eq p
  rw [h, List.countP_cons, hp]
  simp

/-- A predicate holding on exactly one index below `d` counts once over `range d`. -/
theorem countP_range_unique (d c : Nat) (q : Nat → Bool) (hc : c < d)
    (hq : ∀ k, k < d → (q k = true ↔ k = c)) : (List.range d).countP q = 1 := by
  induction d with
  | zero => omega
  | succ d ih =>
    rw [List.range_succ, List.countP_append]
    by_cases h : c = d
    · subst h
      have h1 : (List.range c).countP q = 0 := by
        refine List.countP_eq_zero.mpr (fun a ha => ?_)
        have ha2 := List.mem_range.mp ha
        intro hqa
        have := (hq a (by omega)).mp hqa
        omega
      have h2 : q c = true := (hq c (by omega)).mpr rfl
      simp [h1, h2]
    · have h1 := ih (by omega) (fun k hk => hq k (by omega))
      have h2 : q d = false := by
        cases hqd : q d with
        | false => rfl
        | true => exact absurd ((hq d (by omega)).mp hqd) (fun hh => h hh.symm)
      simp [h1, h2]

/-- A predicate false below `d` counts zero over `range d`. -/
theorem countP_range_zero (d : Nat) (q : Nat → Bool)
    (hq : ∀ k, k < d → q k = false) : (List.range d).countP q = 0 := by
  refine List.countP_eq_zero.mpr (fun a ha => ?_)
  have := List.mem_range.mp ha
  simp [hq a this]

/-- In-range JavaScript array assignment keeps the length. -/
theorem setIdxExtend_length (l : List String) (i : Nat) (v : String) (h : i < l.length) :
    (setIdxExtend l i v).length = l.length := by
  simp [setIdxExtend, h]

/-- In-range assignment stores the value at the target index. -/
theorem setIdxExtend_getD_self (l : List String) (i : Nat) (v : String) (h : i < l.length) :
    (setIdxExtend l i v).getD i "" = v := by
  simp [setIdxExtend, h, List.getD, List.getElem?_set_self]

/-- In-range assignment leaves every other index unchanged. -/
theorem setIdxExtend_getD_ne (l : List String) (i j : Nat) (v : String) (h : i < l.length)
    (hne : i ≠ j) : (setIdxExtend l i v).getD j "" = l.getD j "" := by
  simp [setIdxExtend, h, List.getD, List.getElem?_set_ne hne]

/-- Folding string concatenation over one-character strings rebuilds the string. -/
theorem foldl_append_map_mk (l : List Char) (a : String) :
    List.foldl (fun a s => a ++ s) a (l.map (fun c => String.mk [c])) = a ++ String.mk l := by
  induction l generalizing a with
  | nil =>
    apply String.ext
    simp
  | cons c t ih =>
    rw [List.map_cons, List.foldl_cons, ih]
    apply String.ext
    simp

/-- The concatenation of `split('')` is the original string. -/
theorem concatDigits_splitChars (s : String) : concatDigits (splitChars s) = s := by
  have h := foldl_append_map_mk s.data ""
  rw [concatDigits, splitChars, h]
  apply String.ext
  simp

/-- The concatenation of the first `n` pieces of `split('')` is the `n`-character prefix. -/
theorem concatDigits_splitChars_take (s : String) (n : Nat) :
    concatDigits ((splitChars s).take n) = String.mk (s.data.take n) := by
  have h1 : (splitChars s).take n = (s.data.take n).map (fun c => String.mk [c]) := by
    rw [splitChars, List.map_take]
  rw [h1]
  have h := foldl_append_map_mk (s.data.take n) ""
  rw [concatDigits, h]
  apply String.ext
  simp

/-- `split('')` has one piece per character. -/
theorem splitChars_length (s : String) : (splitChars s).length = s.length := by
  rw [splitChars, List.length_map]
  rfl

/-- A digit list of length `d` that agrees with `fd` below `d` is the `d`-prefix of `fd`. -/
theorem digits_eq_take (fd digits : List String) (d : Nat) (hlen : digits.length = d)
    (hfd : d ≤ fd.length) (hpt : ∀ i, i < d → digits.getD i "" = fd.getD i "") :
    digits = fd.take d := by
  apply List.ext_getElem
  · rw [hlen, List.length_take]
    omega
  · intro i h1 h2
    have hi : i < d := by rwa [hlen] at h1
    have h3 : i < fd.length := by omega
    have e1 : digits.getD i "" = digits[i] := List.getD_eq_getElem digits "" h1
    have e2 : fd.getD i "" = fd[i] := List.getD_eq_getElem fd "" h3
    rw [List.getElem_take]
    rw [← e1, ← e2] at *
    exact hpt i hi

/-- The timer queue right after scheduling: the spin intervals then the stop timeouts. -/
theorem scheduleReveal_pending (M : Machine) (final userName : String) (hP : M.pending = []) :
    (scheduleReveal M final userName).pending =
      (List.range M.settings.digits).map
        (fun j => ⟨M.nextId + j, M.now + 50, TimerKind.spin j⟩)
      ++ (List.range M.settings.digits).map
        (fun k => ⟨M.nextId + M.settings.digits + k,
          M.now + M.settings.generatingTime + k * M.settings.digitStopDelay,
          TimerKind.stop (M.settings.digits - 1 - k) (splitChars final) final userName⟩) := by
  simp [scheduleReveal, hP]

/-- `scheduleReveal` establishes the reveal invariant on a cleared machine. -/
theorem Inv_schedule (M : Machine) (final userName : String)
    (hP : M.pending = []) (hSD : M.stoppedDigits = [])
    (hAD : M.animatingDigits = List.replicate M.settings.digits "0")
    (hd : 1 ≤ M.settings.digits) (hfd : M.settings.digits ≤ (splitChars final).length) :
    Inv ⟨M.settings.digits, M.nextId, splitChars final, final, userName, M.winners⟩
        (scheduleReveal M final userName) := by
  have hpend := scheduleReveal_pending M final userName hP
  have hstop : ∀ i, i < M.settings.digits →
      (scheduleReveal M final userName).pending.countP
        (stopP ⟨M.settings.digits, M.nextId, splitChars final, final, userName, M.winners⟩ i)
        = 1 := by
    intro i hi
    rw [hpend, List.countP_append]
    have h1 : ((List.range M.settings.digits).map
        (fun j => (⟨M.nextId + j, M.now + 50, TimerKind.spin j⟩ : PendingEvent))).countP
        (stopP ⟨M.settings.digits, M.nextId, splitChars final, final, userName, M.winners⟩ i)
        = 0 := by
      rw [List.countP_map]
      apply countP_range_zero
      intro k hk
      simp [stopP, Function.comp]
    have h2 : ((List.range M.settings.digits).map
        (fun k => (⟨M.nextId + M.settings.digits + k,
          M.now + M.settings.generatingTime + k * M.settings.digitStopDelay,
          TimerKind.stop (M.settings.digits - 1 - k) (splitChars final) final userName⟩ :
            PendingEvent))).countP
        (stopP ⟨M.settings.digits, M.nextId, splitChars final, final, userName, M.winners⟩ i)
        = 1 := by
      rw [List.countP_map]
      apply countP_range_unique _ (M.settings.digits - 1 - i) _ (by omega)
      intro k hk
      simp only [Function.comp, stopP, decide_eq_true_eq, TimerKind.stop.injEq, and_true,
        true_and, eq_self_iff_true]
      omega
    omega
  have hspin : ∀ i, i < M.settings.digits →
      (scheduleReveal M final userName).pending.countP (spinP i) = 1 := by
    intro i hi
    rw [hpend, List.countP_append]
    have h1 : ((List.range M.settings.digits).map
        (fun j => (⟨M.nextId + j, M.now + 50, TimerKind.spin j⟩ : PendingEvent))).countP
        (spinP i) = 1 := by
      rw [List.countP_map]
      apply countP_range_unique _ i _ hi
      intro k hk
      simp only [Function.comp, spinP, decide_eq_true_eq, TimerKind.spin.injEq]
    have h2 : ((List.range M.settings.digits).map
        (fun k => (⟨M.nextId + M.settings.digits + k,
          M.now + M.settings.generatingTime + k * M.settings.digitStopDelay,
          TimerKind.stop (M.settings.digits - 1 - k) (splitChars final) final userName⟩ :
            PendingEvent))).countP (spinP i) = 0 := by
      rw [List.countP_map]
      apply countP_range_zero
      intro k hk
      simp [spinP, Function.comp]
    omega
  have hsettle :
      (scheduleReveal M final userName).pending.countP
        (settleP ⟨M.settings.digits, M.nextId, splitChars final, final, userName, M.winners⟩)
        = 0 := by
    rw [hpend, List.countP_append]
    have h1 : ((List.range M.settings.digits).map
        (fun j => (⟨M.nextId + j, M.now + 50, TimerKind.spin j⟩ : PendingEvent))).countP
        (settleP ⟨M.settings.digits, M.nextId, splitChars final, final, userName, M.winners⟩)
        = 0 := by
      rw [List.countP_map]
      apply countP_range_zero
      intro k hk
      simp [settleP, Function.comp]
    have h2 : ((List.range M.settings.digits).map
        (fun k => (⟨M.nextId + M.settings.digits + k,
          M.now + M.settings.generatingTime + k * M.settings.digitStopDelay,
          TimerKind.stop (M.settings.digits - 1 - k) (splitChars final) final userName⟩ :
            PendingEvent))).countP
        (settleP ⟨M.settings.digits, M.nextId, splitChars final, final, userName, M.winners⟩)
        = 0 := by
      rw [List.countP_map]
      apply countP_range_zero
      intro k hk
      simp [settleP, Function.comp]
    omega
  refine ⟨hd, hfd, rfl, ?_, ?_, ?_, ?_, ?_, ?_, ?_, ?_⟩
  · show M.animatingDigits.length = M.settings.digits
    rw [hAD, List.length_replicate]
  · intro e he
    rw [hpend] at he
    rcases List.mem_append.mp he with h | h
    · obtain ⟨j, hj, rfl⟩ := List.mem_map.mp h
      exact Or.inl ⟨j, List.mem_range.mp hj, rfl, rfl⟩
    · obtain ⟨k, hk, rfl⟩ := List.mem_map.mp h
      have hk2 := List.mem_range.mp hk
      refine Or.inr (Or.inl ⟨M.settings.digits - 1 - k,
        show M.settings.digits - 1 - k < M.settings.digits by omega, rfl, ?_⟩)
      show M.nextId + M.settings.digits + k
        = M.nextId + M.settings.digits + (M.settings.digits - 1 - (M.settings.digits - 1 - k))
      omega
  · intro i hi
    rw [hstop i hi]
  · intro i hi
    rw [hspin i hi]
  · intro i hi h0
    rw [hstop i hi] at h0
    omega
  · intro i hmem
    have hmem2 : i ∈ M.stoppedDigits := hmem
    rw [hSD] at hmem2
    exact absurd hmem2 (List.not_mem_nil i)
  · show M.nextId + 2 * M.settings.digits ≤ M.nextId + 2 * M.settings.digits
    exact le_refl _
  · exact Or.inl ⟨by rw [hstop 0 (by omega)]; omega, hsettle, rfl⟩

/-- Count over a one-element list. -/
theorem countP_singleton {α : Type} (p : α → Bool) (e : α) :
    ([e] : List α).countP p = if p e then 1 else 0 := by
  simp [List.countP_cons]

/-- Filtering by `q` keeps the `p`-count when `p` implies `q` on the list. -/
theorem countP_filter_eq_of_imp {α : Type} (l : List α) (p q : α → Bool)
    (h : ∀ a ∈ l, p a = true → q a = true) : (l.filter q).countP p = l.countP p := by
  induction l with
  | nil => rfl
  | cons a t ih =>
    have ht := fun b hb => h b (List.mem_cons_of_mem a hb)
    by_cases hq : q a = true
    · rw [List.filter_cons_of_pos hq, List.countP_cons, List.countP_cons, ih ht]
    · have hq2 : q a = false := by
        cases hqa : q a with
        | false => rfl
        | true => exact absurd hqa hq
      have hp : p a = false := by
        cases hpa : p a with
        | false => rfl
        | true => exact absurd (h a (List.mem_cons_self a t) hpa) (by simp [hq2])
      rw [List.filter_cons_of_neg (by simp [hq2]), List.countP_cons, ih ht, hp]
      simp

/-- Transport of the draw phase along a step that does not touch its observables. -/
theorem Phase_congr (c : DrawCtx) (m m2 : Machine)
    (h0 : m2.pending.countP (stopP c 0) = m.pending.countP (stopP c 0))
    (hs : m2.pending.countP (settleP c) = m.pending.countP (settleP c))
    (hw : m2.winners = m.winners) (hf : m2.finalNumber = m.finalNumber)
    (hu : m2.finalUser = m.finalUser) (hg : m2.isGenerating = m.isGenerating)
    (hp : Phase c m) : Phase c m2 := by
  rcases hp with ⟨a, b, hww⟩ | ⟨a, b, hww⟩ | ⟨a, b, hww, hff, huu, hgg⟩
  · exact Or.inl ⟨by rw [h0]; exact a, by rw [hs]; exact b, by rw [hw]; exact hww⟩
  · exact Or.inr (Or.inl ⟨by rw [h0]; exact a, by rw [hs]; exact b, by rw [hw]; exact hww⟩)
  · exact Or.inr (Or.inr ⟨by rw [h0]; exact a, by rw [hs]; exact b, by rw [hw]; exact hww,
      by rw [hf]; exact hff, by rw [hu]; exact huu, by rw [hg]; exact hgg⟩)

/-- Unfolding of `fire` on a spin tick. -/
theorem fire_spin_eq (m : Machine) (eid et slot r : Nat) :
    fire m ⟨eid, et, TimerKind.spin slot⟩ r =
      { m with now := et,
               animatingDigits := setIdxExtend m.animatingDigits slot (toString (r % 10)),
               pending := (m.pending.erase ⟨eid, et, TimerKind.spin slot⟩)
                 ++ [⟨eid, et + 50, TimerKind.spin slot⟩] } := rfl

/-- Unfolding of `fire` on a settle callback. -/
theorem fire_settle_eq (m : Machine) (eid et r : Nat) (f u : String) :
    fire m ⟨eid, et, TimerKind.settle f u⟩ r =
      { m with now := et, finalNumber := f, finalUser := u, isGenerating := false,
               winners := mkWinner et f u :: m.winners,
               pending := m.pending.erase ⟨eid, et, TimerKind.settle f u⟩ } := rfl

/-- Unfolding of `fire` on a stop callback whose `intervalRefs` cell is present. -/
theorem fire_stop_eq (m : Machine) (eid et i r iid : Nat) (fd : List String) (f u : String)
    (hget : m.intervalRefs[i]? = some iid) :
    fire m ⟨eid, et, TimerKind.stop i fd f u⟩ r =
      { m with now := et,
               animatingDigits := setIdxExtend m.animatingDigits i (fd.getD i ""),
               stoppedDigits := m.stoppedDigits ++ [i],
               pending :=
                 if i = 0 then
                   ((m.pending.erase ⟨eid, et, TimerKind.stop i fd f u⟩).filter
                       (fun ev => ev.id ≠ iid))
                     ++ [⟨m.nextId, et + 200, TimerKind.settle f u⟩]
                 else
                   (m.pending.erase ⟨eid, et, TimerKind.stop i fd f u⟩).filter
                     (fun ev => ev.id ≠ iid),
               nextId := if i = 0 then m.nextId + 1 else m.nextId } := by
  simp [fire, hget]

/-- One spin tick preserves the reveal invariant. -/
theorem Inv_fire_spin (c : DrawCtx) (m : Machine) (eid et i r : Nat)
    (hInv : Inv c m) (he : (⟨eid, et, TimerKind.spin i⟩ : PendingEvent) ∈ m.pending)
    (hi : i < c.d) (hid : eid = c.base + i) :
    Inv c (fire m ⟨eid, et, TimerKind.spin i⟩ r) := by
  have hilen : i < m.animatingDigits.length := by rw [hInv.digitsLen]; exact hi
  have hc : ∀ p : PendingEvent → Bool,
      p ⟨eid, et, TimerKind.spin i⟩ = p ⟨eid, et + 50, TimerKind.spin i⟩ →
      ((m.pending.erase ⟨eid, et, TimerKind.spin i⟩)
        ++ [(⟨eid, et + 50, TimerKind.spin i⟩ : PendingEvent)]).countP p
        = m.pending.countP p := by
    intro p hp
    rw [List.countP_append, countP_singleton, ← hp]
    cases hpe : p ⟨eid, et, TimerKind.spin i⟩ with
    | true =>
      have h1 := countP_erase_pos m.pending _ p he hpe
      rw [if_pos rfl]
      omega
    | false =>
      have h1 := countP_erase_neg m.pending _ p he hpe
      rw [if_neg (by simp), h1]
      omega
  rw [fire_spin_eq]
  refine ⟨hInv.hd, hInv.hfd, hInv.refs, ?_, ?_, ?_, ?_, ?_, ?_, hInv.nid, ?_⟩
  · show (setIdxExtend m.animatingDigits i (toString (r % 10))).length = c.d
    rw [setIdxExtend_length _ _ _ hilen, hInv.digitsLen]
  · intro e2 he2
    rcases List.mem_append.mp he2 with h | h
    · exact hInv.valid _ (List.mem_of_mem_erase h)
    · rw [List.mem_singleton.mp h]
      exact Or.inl ⟨i, hi, rfl, hid⟩
  · intro j hj
    show ((m.pending.erase ⟨eid, et, TimerKind.spin i⟩)
      ++ [(⟨eid, et + 50, TimerKind.spin i⟩ : PendingEvent)]).countP (stopP c j) ≤ 1
    rw [hc (stopP c j) rfl]
    exact hInv.stopCount j hj
  · intro j hj
    show ((m.pending.erase ⟨eid, et, TimerKind.spin i⟩)
      ++ [(⟨eid, et + 50, TimerKind.spin i⟩ : PendingEvent)]).countP (spinP j) ≤ 1
    rw [hc (spinP j) rfl]
    exact hInv.spinCount j hj
  · intro j hj h0
    have h02 : m.pending.countP (stopP c j) = 0 := by
      rw [← hc (stopP c j) rfl]
      exact h0
    obtain ⟨hdig, hsp0⟩ := hInv.fixedOfStopGone j hj h02
    by_cases hji : j = i
    · subst hji
      have hpos : 0 < m.pending.countP (spinP j) :=
        List.countP_pos_iff.mpr ⟨_, he, by simp [spinP]⟩
      omega
    · constructor
      · show (setIdxExtend m.animatingDigits i (toString (r % 10))).getD j "" = c.fd.getD j ""
        rw [setIdxExtend_getD_ne _ _ _ _ hilen (fun hh => hji hh.symm)]
        exact hdig
      · show ((m.pending.erase ⟨eid, et, TimerKind.spin i⟩)
          ++ [(⟨eid, et + 50, TimerKind.spin i⟩ : PendingEvent)]).countP (spinP j) = 0
        rw [hc (spinP j) rfl]
        exact hsp0
  · intro j hjmem
    obtain ⟨hj, h0⟩ := hInv.stopped j hjmem
    refine ⟨hj, ?_⟩
    show ((m.pending.erase ⟨eid, et, TimerKind.spin i⟩)
      ++ [(⟨eid, et + 50, TimerKind.spin i⟩ : PendingEvent)]).countP (stopP c j) = 0
    rw [hc (stopP c j) rfl]
    exact h0
  · exact Phase_congr c m _ (hc (stopP c 0) rfl) (hc (settleP c) rfl) rfl rfl rfl rfl hInv.phase

/-- One stop callback preserves the reveal invariant. -/
theorem Inv_fire_stop (c : DrawCtx) (m : Machine) (eid et i r : Nat)
    (hInv : Inv c m)
    (he : (⟨eid, et, TimerKind.stop i c.fd c.final c.userName⟩ : PendingEvent) ∈ m.pending)
    (hi : i < c.d) (hid : eid = c.base + c.d + (c.d - 1 - i)) :
    Inv c (fire m ⟨eid, et, TimerKind.stop i c.fd c.final c.userName⟩ r) := by
  have hget : m.intervalRefs[i]? = some (c.base + i) := by
    rw [hInv.refs]
    simp [List.getElem?_map, List.getElem?_range, hi]
  have hilen : i < m.animatingDigits.length := by rw [hInv.digitsLen]; exact hi
  have hsE : stopP c i (⟨eid, et, TimerKind.stop i c.fd c.final c.userName⟩ : PendingEvent)
      = true := by simp [stopP]
  have h1count : m.pending.countP (stopP c i) = 1 := by
    have h1 := hInv.stopCount i hi
    have h2 : 0 < m.pending.countP (stopP c i) := List.countP_pos_iff.mpr ⟨_, he, hsE⟩
    omega
  have hvalids : ∀ ev ∈ m.pending.erase
      ⟨eid, et, TimerKind.stop i c.fd c.final c.userName⟩, ValidEv c ev :=
    fun ev hv => hInv.valid ev (List.mem_of_mem_erase hv)
  have hfil : ∀ p : PendingEvent → Bool,
      (∀ ev, ValidEv c ev → p ev = true → ev.id ≠ c.base + i) →
      ((m.pending.erase ⟨eid, et, TimerKind.stop i c.fd c.final c.userName⟩).filter
          (fun ev => ev.id ≠ c.base + i)).countP p
        = (m.pending.erase ⟨eid, et, TimerKind.stop i c.fd c.final c.userName⟩).countP p := by
    intro p hcond
    apply countP_filter_eq_of_imp
    intro ev hv hp
    have h2 := hcond ev (hvalids ev hv) hp
    simp [h2]
  have hq_stop : ∀ j, ∀ ev, ValidEv c ev → stopP c j ev = true → ev.id ≠ c.base + i := by
    intro j ev hval hp
    rw [stopP, decide_eq_true_eq] at hp
    rcases hval with ⟨i2, hi2, hk, hid2⟩ | ⟨i2, hi2, hk, hid2⟩ | ⟨hk, hid2⟩
    · rw [hk] at hp; exact absurd hp (by simp)
    · rw [hk] at hp
      simp only [TimerKind.stop.injEq] at hp
      have h3 : i2 = j := hp.1
      rw [hid2]
      omega
    · rw [hk] at hp; exact absurd hp (by simp)
  have hq_settle : ∀ ev, ValidEv c ev → settleP c ev = true → ev.id ≠ c.base + i := by
    intro ev hval hp
    rw [settleP, decide_eq_true_eq] at hp
    rcases hval with ⟨i2, hi2, hk, hid2⟩ | ⟨i2, hi2, hk, hid2⟩ | ⟨hk, hid2⟩
    · rw [hk] at hp; exact absurd hp (by simp)
    · rw [hk] at hp; exact absurd hp (by simp)
    · omega
  have hq_spin : ∀ j, j ≠ i → ∀ ev, ValidEv c ev → spinP j ev = true → ev.id ≠ c.base + i := by
    intro j hne ev hval hp
    rw [spinP, decide_eq_true_eq] at hp
    rcases hval with ⟨i2, hi2, hk, hid2⟩ | ⟨i2, hi2, hk, hid2⟩ | ⟨hk, hid2⟩
    · rw [hk] at hp
      simp only [TimerKind.spin.injEq] at hp
      subst hp
      rw [hid2]
      intro hcon
      exact hne (by omega)
    · rw [hk] at hp; exact absurd hp (by simp)
    · rw [hk] at hp; exact absurd hp (by simp)
  have hL1_stop_i :
      ((m.pending.erase ⟨eid, et, TimerKind.stop i c.fd c.final c.userName⟩).filter
        (fun ev => ev.id ≠ c.base + i)).countP (stopP c i) = 0 := by
    rw [hfil _ (hq_stop i)]
    have h2 := countP_erase_pos m.pending _ _ he hsE
    omega
  have hL1_stop_ne : ∀ j, j ≠ i →
      ((m.pending.erase ⟨eid, et, TimerKind.stop i c.fd c.final c.userName⟩).filter
        (fun ev => ev.id ≠ c.base + i)).countP (stopP c j)
        = m.pending.countP (stopP c j) := by
    intro j hne
    rw [hfil _ (hq_stop j)]
    apply countP_erase_neg _ _ _ he
    simp only [stopP, decide_eq_false_iff_not]
    intro hcon
    simp only [TimerKind.stop.injEq] at hcon
    exact hne hcon.1.symm
  have hL1_spin_i :
      ((m.pending.erase ⟨eid, et, TimerKind.stop i c.fd c.final c.userName⟩).filter
        (fun ev => ev.id ≠ c.base + i)).countP (spinP i) = 0 := by
    apply List.countP_eq_zero.mpr
    intro ev hv
    rw [List.mem_filter] at hv
    obtain ⟨hv1, hv2⟩ := hv
    intro hp
    rw [spinP, decide_eq_true_eq] at hp
    rcases hvalids ev hv1 with ⟨i2, hi2, hk, hid2⟩ | ⟨i2, hi2, hk, hid2⟩ | ⟨hk, hid2⟩
    · rw [hk] at hp
      simp only [TimerKind.spin.injEq] at hp
      subst hp
      rw [hid2] at hv2
      simp at hv2
    · rw [hk] at hp; exact absurd hp (by simp)
    · rw [hk] at hp; exact absurd hp (by simp)
  have hspinE : ∀ j, spinP j (⟨eid, et, TimerKind.stop i c.fd c.final c.userName⟩ :
      PendingEvent) = false := by
    intro j
    simp [spinP]
  have hL1_spin_ne : ∀ j, j ≠ i →
      ((m.pending.erase ⟨eid, et, TimerKind.stop i c.fd c.final c.userName⟩).filter
        (fun ev => ev.id ≠ c.base + i)).countP (spinP j)
        = m.pending.countP (spinP j) := by
    intro j hne
    rw [hfil _ (hq_spin j hne)]
    exact countP_erase_neg _ _ _ he (hspinE j)
  have hL1_settle :
      ((m.pending.erase ⟨eid, et, TimerKind.stop i c.fd c.final c.userName⟩).filter
        (fun ev => ev.id ≠ c.base + i)).countP (settleP c)
        = m.pending.countP (settleP c) := by
    rw [hfil _ hq_settle]
    apply countP_erase_neg _ _ _ he
    simp [settleP]
  have hL1_valid : ∀ ev ∈ (m.pending.erase
      ⟨eid, et, TimerKind.stop i c.fd c.final c.userName⟩).filter
        (fun ev => ev.id ≠ c.base + i), ValidEv c ev := by
    intro ev hv
    rw [List.mem_filter] at hv
    exact hvalids ev hv.1
  rw [fire_stop_eq m eid et i r (c.base + i) c.fd c.final c.userName hget]
  by_cases hi0 : i = 0
  · subst hi0
    show Inv c
      { m with now := et,
               animatingDigits := setIdxExtend m.animatingDigits 0 (c.fd.getD 0 ""),
               stoppedDigits := m.stoppedDigits ++ [0],
               pending :=
                 ((m.pending.erase ⟨eid, et, TimerKind.stop 0 c.fd c.final c.userName⟩).filter
                     (fun ev => ev.id ≠ c.base + 0))
                   ++ [⟨m.nextId, et + 200, TimerKind.settle c.final c.userName⟩],
               nextId := m.nextId + 1 }
    refine ⟨hInv.hd, hInv.hfd, hInv.refs, ?_, ?_, ?_, ?_, ?_, ?_, ?_, ?_⟩
    · show (setIdxExtend m.animatingDigits 0 (c.fd.getD 0 "")).length = c.d
      rw [setIdxExtend_length _ _ _ hilen, hInv.digitsLen]
    · intro ev hv
      rcases List.mem_append.mp hv with h | h
      · exact hL1_valid ev h
      · rw [List.mem_singleton.mp h]
        exact Or.inr (Or.inr ⟨rfl, hInv.nid⟩)
    · intro j hj
      show (_ ++ _ : List PendingEvent).countP (stopP c j) ≤ 1
      rw [List.countP_append, countP_singleton, if_neg (by simp [stopP])]
      by_cases hji : j = 0
      · subst hji
        rw [hL1_stop_i]
        omega
      · rw [hL1_stop_ne j hji]
        have := hInv.stopCount j hj
        omega
    · intro j hj
      show (_ ++ _ : List PendingEvent).countP (spinP j) ≤ 1
      rw [List.countP_append, countP_singleton, if_neg (by simp [spinP])]
      by_cases hji : j = 0
      · subst hji
        rw [hL1_spin_i]
        omega
      · rw [hL1_spin_ne j hji]
        have := hInv.spinCount j hj
        omega
    · intro j hj h0
      by_cases hji : j = 0
      · subst hji
        constructor
        · show (setIdxExtend m.animatingDigits 0 (c.fd.getD 0 "")).getD 0 "" = c.fd.getD 0 ""
          exact setIdxExtend_getD_self _ _ _ hilen
        · show (_ ++ _ : List PendingEvent).countP (spinP 0) = 0
          rw [List.countP_append, countP_singleton, if_neg (by simp [spinP]), hL1_spin_i]
      · have h02 : m.pending.countP (stopP c j) = 0 := by
          rw [← hL1_stop_ne j hji]
          rw [List.countP_append, countP_singleton, if_neg (by simp [stopP])] at h0
          omega
        obtain ⟨hdig, hsp0⟩ := hInv.fixedOfStopGone j hj h02
        constructor
        · show (setIdxExtend m.animatingDigits 0 (c.fd.getD 0 "")).getD j "" = c.fd.getD j ""
          rw [setIdxExtend_getD_ne _ _ _ _ hilen (fun hh => hji hh.symm)]
          exact hdig
        · show (_ ++ _ : List PendingEvent).countP (spinP j) = 0
          rw [List.countP_append, countP_singleton, if_neg (by simp [spinP]),
            hL1_spin_ne j hji, hsp0]
    · intro j hjmem
      rcases List.mem_append.mp hjmem with h | h
      · obtain ⟨hj, h0⟩ := hInv.stopped j h
        refine ⟨hj, ?_⟩
        by_cases hji : j = 0
        · subst hji
          rw [h1count] at h0
          omega
        · show (_ ++ _ : List PendingEvent).countP (stopP c j) = 0
          rw [List.countP_append, countP_singleton, if_neg (by simp [stopP]),
            hL1_stop_ne j hji, h0]
      · rw [List.mem_singleton.mp h]
        refine ⟨hi, ?_⟩
        show (_ ++ _ : List PendingEvent).countP (stopP c 0) = 0
        rw [List.countP_append, countP_singleton, if_neg (by simp [stopP]), hL1_stop_i]
    · show c.base + 2 * c.d ≤ m.nextId + 1
      have := hInv.nid
      omega
    · rcases hInv.phase with ⟨ha, hb, hw⟩ | ⟨ha, hb, hw⟩ | ⟨ha, hb, hw, hf, hu, hg⟩
      · refine Or.inr (Or.inl ⟨?_, ?_, hw⟩)
        · show (_ ++ _ : List PendingEvent).countP (stopP c 0) = 0
          rw [List.countP_append, countP_singleton, if_neg (by simp [stopP]), hL1_stop_i]
        · show (_ ++ _ : List PendingEvent).countP (settleP c) = 1
          rw [List.countP_append, countP_singleton, if_pos (by simp [settleP]), hL1_settle, hb]
      · rw [h1count] at ha
        omega
      · rw [h1count] at ha
        omega
  · rw [if_neg hi0, if_neg hi0]
    refine ⟨hInv.hd, hInv.hfd, hInv.refs, ?_, ?_, ?_, ?_, ?_, ?_, hInv.nid, ?_⟩
    · show (setIdxExtend m.animatingDigits i (c.fd.getD i "")).length = c.d
      rw [setIdxExtend_length _ _ _ hilen, hInv.digitsLen]
    · exact hL1_valid
    · intro j hj
      by_cases hji : j = i
      · subst hji
        rw [hL1_stop_i]
        omega
      · rw [hL1_stop_ne j hji]
        exact hInv.stopCount j hj
    · intro j hj
      by_cases hji : j = i
      · subst hji
        rw [hL1_spin_i]
        omega
      · rw [hL1_spin_ne j hji]
        exact hInv.spinCount j hj
    · intro j hj h0
      by_cases hji : j = i
      · subst hji
        exact ⟨setIdxExtend_getD_self _ _ _ hilen, hL1_spin_i⟩
      · have h02 : m.pending.countP (stopP c j) = 0 := by
          rw [← hL1_stop_ne j hji]
          exact h0
        obtain ⟨hdig, hsp0⟩ := hInv.fixedOfStopGone j hj h02
        constructor
        · show (setIdxExtend m.animatingDigits i (c.fd.getD i "")).getD j "" = c.fd.getD j ""
          rw [setIdxExtend_getD_ne _ _ _ _ hilen (fun hh => hji hh.symm)]
          exact hdig
        · rw [hL1_spin_ne j hji]
          exact hsp0
    · intro j hjmem
      rcases List.mem_append.mp hjmem with h | h
      · obtain ⟨hj, h0⟩ := hInv.stopped j h
        refine ⟨hj, ?_⟩
        by_cases hji : j = i
        · subst hji
          rw [h1count] at h0
          omega
        · rw [hL1_stop_ne j hji]
          exact h0
      · rw [List.mem_singleton.mp h]
        exact ⟨hi, hL1_stop_i⟩
    · refine Phase_congr c m _ ?_ hL1_settle rfl rfl rfl rfl hInv.phase
      exact hL1_stop_ne 0 (fun hh => hi0 hh.symm)

/-- The settle callback preserves the reveal invariant. -/
theorem Inv_fire_settle (c : DrawCtx) (m : Machine) (eid et r : Nat)
    (hInv : Inv c m)
    (he : (⟨eid, et, TimerKind.settle c.final c.userName⟩ : PendingEvent) ∈ m.pending) :
    Inv c (fire m ⟨eid, et, TimerKind.settle c.final c.userName⟩ r) := by
  have hsE : settleP c (⟨eid, et, TimerKind.settle c.final c.userName⟩ : PendingEvent)
      = true := by simp [settleP]
  have herase_settle := countP_erase_pos m.pending _ _ he hsE
  have herase_stop : ∀ j,
      (m.pending.erase ⟨eid, et, TimerKind.settle c.final c.userName⟩).countP (stopP c j)
        = m.pending.countP (stopP c j) :=
    fun j => countP_erase_neg _ _ _ he (by simp [stopP])
  have herase_spin : ∀ j,
      (m.pending.erase ⟨eid, et, TimerKind.settle c.final c.userName⟩).countP (spinP j)
        = m.pending.countP (spinP j) :=
    fun j => countP_erase_neg _ _ _ he (by simp [spinP])
  rw [fire_settle_eq]
  refine ⟨hInv.hd, hInv.hfd, hInv.refs, hInv.digitsLen, ?_, ?_, ?_, ?_, ?_, hInv.nid, ?_⟩
  · intro ev hv
    exact hInv.valid ev (List.mem_of_mem_erase hv)
  · intro j hj
    show (m.pending.erase
      ⟨eid, et, TimerKind.settle c.final c.userName⟩).countP (stopP c j) ≤ 1
    rw [herase_stop j]
    exact hInv.stopCount j hj
  · intro j hj
    show (m.pending.erase
      ⟨eid, et, TimerKind.settle c.final c.userName⟩).countP (spinP j) ≤ 1
    rw [herase_spin j]
    exact hInv.spinCount j hj
  · intro j hj h0
    have h02 : m.pending.countP (stopP c j) = 0 := by
      rw [← herase_stop j]
      exact h0
    obtain ⟨hdig, hsp0⟩ := hInv.fixedOfStopGone j hj h02
    refine ⟨hdig, ?_⟩
    show (m.pending.erase
      ⟨eid, et, TimerKind.settle c.final c.userName⟩).countP (spinP j) = 0
    rw [herase_spin j]
    exact hsp0
  · intro j hjmem
    obtain ⟨hj, h0⟩ := hInv.stopped j hjmem
    refine ⟨hj, ?_⟩
    show (m.pending.erase
      ⟨eid, et, TimerKind.settle c.final c.userName⟩).countP (stopP c j) = 0
    rw [herase_stop j]
    exact h0
  · have hpos : 0 < m.pending.countP (settleP c) := List.countP_pos_iff.mpr ⟨_, he, hsE⟩
    rcases hInv.phase with ⟨ha, hb, hw⟩ | ⟨ha, hb, hw⟩ | ⟨ha, hb, hw, hf, hu, hg⟩
    · omega
    · refine Or.inr (Or.inr ⟨?_, ?_, ⟨et, ?_⟩, rfl, rfl, rfl⟩)
      · show (m.pending.erase
          ⟨eid, et, TimerKind.settle c.final c.userName⟩).countP (stopP c 0) = 0
        rw [herase_stop 0]
        exact ha
      · show (m.pending.erase
          ⟨eid, et, TimerKind.settle c.final c.userName⟩).countP (settleP c) = 0
        omega
      · show mkWinner et c.final c.userName :: m.winners
          = mkWinner et c.final c.userName :: c.w0
        rw [hw]
    · omega

/-- Every event-loop step preserves the reveal invariant. -/
theorem Inv_step (c : DrawCtx) (m m2 : Machine) (hInv : Inv c m)
    (h : stepMachine m m2) : Inv c m2 := by
  obtain ⟨e, he, r, rfl⟩ := h
  obtain ⟨eid, et, ekind⟩ := e
  rcases hInv.valid _ he with ⟨i, hi, hk, hid⟩ | ⟨i, hi, hk, hid⟩ | ⟨hk, hid⟩
  · have hk2 : ekind = TimerKind.spin i := hk
    subst hk2
    exact Inv_fire_spin c m eid et i r hInv he hi hid
  · have hk2 : ekind = TimerKind.stop i c.fd c.final c.userName := hk
    subst hk2
    exact Inv_fire_stop c m eid et i r hInv he hi hid
  · have hk2 : ekind = TimerKind.settle c.final c.userName := hk
    subst hk2
    exact Inv_fire_settle c m eid et r hInv he

/-- The reveal invariant is preserved along any event-loop execution. -/
theorem Inv_steps (c : DrawCtx) (m m2 : Machine) (hInv : Inv c m)
    (h : Relation.ReflTransGen stepMachine m m2) : Inv c m2 := by
  induction h with
  | refl => exact hInv
  | tail h1 h2 ih => exact Inv_step c _ _ ih h2

/-- A successful draw start establishes the reveal invariant. -/
theorem Inv_start (rand : Nat → Nat) (m : Machine) (final userName : String)
    (rem : List Entry) (hIdle : m.isGenerating = false) (hPend : m.pending = [])
    (hSample : sampleDraw rand m = some (final, userName, rem))
    (hd : 1 ≤ m.settings.digits) (hfd : m.settings.digits ≤ (splitChars final).length) :
    Inv (startCtx m final userName) (startGeneration rand m) := by
  rw [startGeneration_eq_schedule rand m final userName rem hIdle hSample]
  exact Inv_schedule
    { m with isGenerating := true, finalNumber := "", finalUser := "", stoppedDigits := [],
             pending := m.pending.filter (fun ev => !(m.intervalRefs.contains ev.id)),
             intervalRefs := [],
             animatingDigits := List.replicate m.settings.digits "0",
             remainingEntries := rem } final userName (by simp [hPend]) rfl rfl hd hfd

/-- When the timer queue has drained, the draw has fully completed: the slot digits are the
digit-count prefix of the captured digits, the final value and owner are published, the
session is idle again, and exactly one winner record has been prepended. -/
theorem Inv_drained (c : DrawCtx) (m : Machine) (hInv : Inv c m) (hP : m.pending = []) :
    m.animatingDigits = c.fd.take c.d ∧ m.finalNumber = c.final ∧ m.finalUser = c.userName ∧
    m.isGenerating = false ∧ ∃ t, m.winners = mkWinner t c.final c.userName :: c.w0 := by
  have hfix : ∀ i, i < c.d → m.animatingDigits.getD i "" = c.fd.getD i "" := by
    intro i hi
    exact (hInv.fixedOfStopGone i hi (by rw [hP]; rfl)).1
  have h1 := digits_eq_take c.fd m.animatingDigits c.d hInv.digitsLen hInv.hfd hfix
  rcases hInv.phase with ⟨ha, hb, hw⟩ | ⟨ha, hb, hw⟩ | ⟨ha, hb, hw, hf, hu, hg⟩
  · rw [hP] at ha
    simp at ha
  · rw [hP] at hb
    simp at hb
  · exact ⟨h1, hf, hu, hg, hw⟩

/-- C2: for a draw of a value of exactly `digits` characters, along every event-loop
execution each stopped slot displays the corresponding character of the winning value, and
once the draw completes (all timers drained) the concatenation of the displayed digits
equals the sampled value exactly, the final value is published, and the session is idle —
regardless of how many random spin ticks occurred on any slot. -/
theorem terminal_digits (rand : Nat → Nat) (m : Machine) (final userName : String)
    (rem : List Entry) (m2 : Machine)
    (hIdle : m.isGenerating = false) (hPend : m.pending = [])
    (hSample : sampleDraw rand m = some (final, userName, rem))
    (hd : 1 ≤ m.settings.digits) (hLen : final.length = m.settings.digits)
    (hSteps : Relation.ReflTransGen stepMachine (startGeneration rand m) m2) :
    (∀ i ∈ m2.stoppedDigits, m2.animatingDigits.getD i "" = (splitChars final).getD i "") ∧
    (m2.pending = [] →
      concatDigits m2.animatingDigits = final ∧ m2.finalNumber = final ∧
      m2.isGenerating = false) := by
  have hfd : m.settings.digits ≤ (splitChars final).length := by
    rw [splitChars_length, hLen]
  have hInv := Inv_steps _ _ _
    (Inv_start rand m final userName rem hIdle hPend hSample hd hfd) hSteps
  constructor
  · intro i hmem
    obtain ⟨hi, h0⟩ := hInv.stopped i hmem
    exact (hInv.fixedOfStopGone i hi h0).1
  · intro hp
    obtain ⟨h1, h2, h3, h4, h5⟩ := Inv_drained _ _ hInv hp
    refine ⟨?_, h2, h4⟩
    simp only [startCtx] at h1
    rw [h1]
    have ht : (splitChars final).take m.settings.digits = splitChars final := by
      apply List.take_of_length_le
      rw [splitChars_length, hLen]
    rw [ht, concatDigits_splitChars]

/-- Witness for C2: a concrete single-slot roster draw of the value "7", stopped and
settled, displays exactly "7". -/
theorem terminal_digits_witness :
    concatDigits (fire (fire (startGeneration (fun _ => 0) mW)
        ⟨2, 1500, TimerKind.stop 0 (splitChars "7") "7" "A"⟩ 0)
        ⟨3, 1700, TimerKind.settle "7" "A"⟩ 0).animatingDigits = "7" ∧
    (fire (fire (startGeneration (fun _ => 0) mW)
        ⟨2, 1500, TimerKind.stop 0 (splitChars "7") "7" "A"⟩ 0)
        ⟨3, 1700, TimerKind.settle "7" "A"⟩ 0).finalNumber = "7" ∧
    (fire (fire (startGeneration (fun _ => 0) mW)
        ⟨2, 1500, TimerKind.stop 0 (splitChars "7") "7" "A"⟩ 0)
        ⟨3, 1700, TimerKind.settle "7" "A"⟩ 0).isGenerating = false := by
  have hsteps : Relation.ReflTransGen stepMachine (startGeneration (fun _ => 0) mW)
      (fire (fire (startGeneration (fun _ => 0) mW)
        ⟨2, 1500, TimerKind.stop 0 (splitChars "7") "7" "A"⟩ 0)
        ⟨3, 1700, TimerKind.settle "7" "A"⟩ 0) := by
    refine Relation.ReflTransGen.head ⟨⟨2, 1500, TimerKind.stop 0 (splitChars "7") "7" "A"⟩,
      by decide, 0, rfl⟩ ?_
    exact Relation.ReflTransGen.head ⟨⟨3, 1700, TimerKind.settle "7" "A"⟩,
      by decide, 0, rfl⟩ Relation.ReflTransGen.refl
  exact (terminal_digits (fun _ => 0) mW "7" "A" [] _ rfl rfl (by decide) (by decide)
    (by decide) hsteps).2 (by decide)

/-- C10: the zero-padding formatter never truncates, so a sampled number whose decimal
representation is longer than the configured digit count settles and is logged with its
full decimal string, while the `digits` slots display character `i` of that string — the
displayed concatenation is the strict `digits`-character prefix of the recorded value. -/
theorem overflow_keeps_full_value (rand : Nat → Nat) (m : Machine) (final userName : String)
    (rem : List Entry) (m2 : Machine)
    (hIdle : m.isGenerating = false) (hPend : m.pending = [])
    (hSample : sampleDraw rand m = some (final, userName, rem))
    (hd : 1 ≤ m.settings.digits) (hLong : m.settings.digits < final.length)
    (hSteps : Relation.ReflTransGen stepMachine (startGeneration rand m) m2)
    (hDrained : m2.pending = []) :
    (∀ s : String, ∀ w : Nat, w ≤ s.length → padStart s w '0' = s) ∧
    m2.finalNumber = final ∧
    (∃ t, m2.winners = mkWinner t final userName :: m.winners) ∧
    m2.animatingDigits.length = m.settings.digits ∧
    concatDigits m2.animatingDigits = String.mk (final.data.take m.settings.digits) ∧
    concatDigits m2.animatingDigits ≠ final := by
  have hfd : m.settings.digits ≤ (splitChars final).length := by
    rw [splitChars_length]
    omega
  have hInv := Inv_steps _ _ _
    (Inv_start rand m final userName rem hIdle hPend hSample hd hfd) hSteps
  obtain ⟨h1, h2, h3, h4, h5⟩ := Inv_drained _ _ hInv hDrained
  simp only [startCtx] at h1 h5
  refine ⟨?_, h2, h5, hInv.digitsLen, ?_, ?_⟩
  · intro s w hw
    simp [padStart, hw]
  · rw [h1, concatDigits_splitChars_take]
  · rw [h1, concatDigits_splitChars_take]
    intro hcon
    have hlen3 : (String.mk (final.data.take m.settings.digits)).length = final.length :=
      congrArg String.length hcon
    have hlen4 : (String.mk (final.data.take m.settings.digits)).length
        = m.settings.digits := by
      show (final.data.take m.settings.digits).length = m.settings.digits
      rw [List.length_take]
      have hfl : final.data.length = final.length := rfl
      omega
    omega

/-- Witness for C10: a one-slot draw of the roster number 23 settles with recorded value
"23" while displaying only its first character "2". -/
theorem overflow_keeps_full_value_witness :
    (fire (fire (startGeneration (fun _ => 0) mW10)
        ⟨2, 1500, TimerKind.stop 0 (splitChars "23") "23" "B"⟩ 0)
        ⟨3, 1700, TimerKind.settle "23" "B"⟩ 0).finalNumber = "23" ∧
    concatDigits (fire (fire (startGeneration (fun _ => 0) mW10)
        ⟨2, 1500, TimerKind.stop 0 (splitChars "23") "23" "B"⟩ 0)
        ⟨3, 1700, TimerKind.settle "23" "B"⟩ 0).animatingDigits
      = String.mk ("23".data.take 1) ∧
    concatDigits (fire (fire (startGeneration (fun _ => 0) mW10)
        ⟨2, 1500, TimerKind.stop 0 (splitChars "23") "23" "B"⟩ 0)
        ⟨3, 1700, TimerKind.settle "23" "B"⟩ 0).animatingDigits ≠ "23" := by
  have hsteps : Relation.ReflTransGen stepMachine (startGeneration (fun _ => 0) mW10)
      (fire (fire (startGeneration (fun _ => 0) mW10)
        ⟨2, 1500, TimerKind.stop 0 (splitChars "23") "23" "B"⟩ 0)
        ⟨3, 1700, TimerKind.settle "23" "B"⟩ 0) := by
    refine Relation.ReflTransGen.head ⟨⟨2, 1500, TimerKind.stop 0 (splitChars "23") "23" "B"⟩,
      by decide, 0, rfl⟩ ?_
    exact Relation.ReflTransGen.head ⟨⟨3, 1700, TimerKind.settle "23" "B"⟩,
      by decide, 0, rfl⟩ Relation.ReflTransGen.refl
  have h := overflow_keeps_full_value (fun _ => 0) mW10 "23" "B" [] _ rfl rfl (by decide)
    (by decide) (by decide) hsteps (by decide)
  exact ⟨h.2.1, h.2.2.2.2.1, h.2.2.2.2.2⟩

end LuckyDraw
